import Mathlib

/-!
Verification of the NIFTY re-entry engine (`viz_reentry_unfiltered.py`):
bar aggregation, candidate detection/scoring, acceptance, persistence,
recovery and dispatch.  Prices are embedded as rationals, timestamps as
naturals (minutes for the bar pipeline, seconds for the recovery model).
-/

/-- A fine (1-minute) bar: timestamp (minutes) and OHLC prices. -/
structure FineBar where
  t : ℕ
  o : ℚ
  h : ℚ
  l : ℚ
  c : ℚ
deriving DecidableEq, Repr

/-- Well-formed fine data: positive timestamps and `low ≤ high`
(guaranteed by the market-data provider). -/
def WF (df : List FineBar) : Prop :=
  ∀ b ∈ df, 1 ≤ b.t ∧ b.l ≤ b.h

/-- Timestamps strictly increasing, as `fetch_today_1min` guarantees
(`set_index("datetime").sort_index()` over unique minutes). -/
def TSorted (df : List FineBar) : Prop :=
  df.Pairwise (fun a b => a.t < b.t)

/-- Right-closed, right-labeled 5-minute bin label of minute `t`
(pandas `resample('5min', label='right', closed='right')`):
minute `t` falls in the bin `(L-5, L]` with `L = binLabel t`. -/
def binLabel (t : ℕ) : ℕ := 5 * ((t - 1) / 5) + 5

/-- The ordered list of 5-minute labels that have at least one fine bar
(pandas generates all bins and `dropna()` removes the empty ones). -/
def labelsOf (df : List FineBar) : List ℕ :=
  (df.map (fun b => binLabel b.t)).dedup

/-- The fine bars constituting the coarse bin labelled `L`. -/
def binOf (df : List FineBar) (L : ℕ) : List FineBar :=
  df.filter (fun b => decide (L - 5 < b.t) && decide (b.t ≤ L))

/-- A raw coarse bar before volatility annotation:
`agg({'open':'first','high':'max','low':'min','close':'last'})`. -/
structure RawBar where
  label : ℕ
  o : ℚ
  h : ℚ
  l : ℚ
  c : ℚ
deriving DecidableEq, Repr

instance : Inhabited RawBar := ⟨⟨0, 0, 0, 0, 0⟩⟩

def maxQ (x : ℚ) (xs : List ℚ) : ℚ := xs.foldl max x

def minQ (x : ℚ) (xs : List ℚ) : ℚ := xs.foldl min x

/-- Aggregate one bin (`first`/`max`/`min`/`last`); bins are nonempty
whenever the label is present, the default 0 is never exposed. -/
def mkRaw (L : ℕ) (fines : List FineBar) : RawBar :=
  match fines with
  | [] => ⟨L, 0, 0, 0, 0⟩
  | x :: r =>
    { label := L
      o := x.o
      h := maxQ x.h (r.map (·.h))
      l := minQ x.l (r.map (·.l))
      c := (r.getLast?.getD x).c }

def rawBars (df : List FineBar) : List RawBar :=
  (labelsOf df).map (fun L => mkRaw L (binOf df L))

/-- True range of a coarse bar given the previous coarse close
(`max(high-low, |high-prev_close|, |low-prev_close|)`; the first bar
has no previous close, pandas' NaN-skipping max leaves `high-low`). -/
def trOf (prev : Option ℚ) (b : RawBar) : ℚ :=
  match prev with
  | none => b.h - b.l
  | some pc => max (b.h - b.l) (max |b.h - pc| |b.l - pc|)

def trListAux (prev : Option ℚ) : List RawBar → List ℚ
  | [] => []
  | b :: rest => trOf prev b :: trListAux (some b.c) rest

def trList (rs : List RawBar) : List ℚ := trListAux none rs

/-- The close carried into the true-range computation after a block of
raw bars (the last close seen, else the inherited one). -/
def lastClose (p : Option ℚ) : List RawBar → Option ℚ
  | [] => p
  | b :: rest => lastClose (some b.c) rest

/-- `tr.rolling(14, min_periods=1).mean()` at position `i`:
the mean of the last `min(i+1, 14)` true ranges. -/
def atrAt (trs : List ℚ) (i : ℕ) : ℚ :=
  let w := (trs.take (i + 1)).drop (i + 1 - 14)
  w.sum / (w.length : ℚ)

/-- A coarse 5-minute bar as exposed by `build_5min_from_1min`:
OHLC, `range = high - low`, and the rolling-mean ATR. -/
structure CoarseBar where
  label : ℕ
  o : ℚ
  h : ℚ
  l : ℚ
  c : ℚ
  range : ℚ
  atr : ℚ
deriving DecidableEq, Repr

/-- Annotate raw coarse bars with range and rolling ATR (positional,
backward-looking). -/
def withAtr (rs : List RawBar) : List CoarseBar :=
  let trs := trList rs
  (List.range rs.length).map (fun i =>
    let r := rs.getD i default
    { label := r.label, o := r.o, h := r.h, l := r.l, c := r.c
      range := r.h - r.l, atr := atrAt trs i })

/-- `build_5min_from_1min`: the full coarse series with range and ATR. -/
def fiveOf (df : List FineBar) : List CoarseBar :=
  withAtr (rawBars df)

/-- EMA with smoothing `a` over a list of closes
(`ewm(span=s, adjust=False)`, `a = 2/(s+1)`, seeded at the first value). -/
def emaStep (a : ℚ) (acc : Option ℚ) (c : ℚ) : Option ℚ :=
  match acc with
  | none => some c
  | some e => some ((1 - a) * e + a * c)

/-- The EMA value at the row of minute `e` equals the fold over all
closes up to and including `e` (the `ewm` recursion is causal). -/
def emaAt (a : ℚ) (df : List FineBar) (e : ℕ) : ℚ :=
  (((df.filter (fun b => decide (b.t ≤ e))).map (·.c)).foldl (emaStep a) none).getD 0

/-- Average fractional rank of `v` in `xs`
(`Series.rank(method='average', pct=True)` at a row holding `v`). -/
def rankPct (xs : List ℚ) (v : ℚ) : ℚ :=
  (((xs.countP (fun x => decide (x < v)) : ℚ)) + ((xs.countP (fun x => decide (x = v)) : ℚ) + 1) / 2)
    / (xs.length : ℚ)

/-- `rank(...).iloc[-1]`: the percentile rank of the last element. -/
def lastRankPct (xs : List ℚ) : ℚ :=
  match xs.getLast? with
  | none => 0
  | some v => rankPct xs v

/-- `df1[revisit_start:revisit_end]` then the touch filter then
`touched.index[0]`: the first fine bar in `[T+5, T+20]` (pandas label
slicing is inclusive at both ends) with `low ≤ reference_close ≤ high`. -/
def revisitOf (df : List FineBar) (T : ℕ) (rc : ℚ) : Option FineBar :=
  ((df.filter (fun b => decide (T + 5 ≤ b.t) && decide (b.t ≤ T + 20))).filter
    (fun b => decide (b.l ≤ rc) && decide (rc ≤ b.h))).head?

inductive Side where
  | long
  | short
deriving DecidableEq, Repr

/-- The data computed for a candidate that reaches scoring
(the fields of `CandidateSignal` plus the score components). -/
structure Sig where
  refT : ℕ
  revT : ℕ
  entryT : ℕ
  eo : ℚ
  ec : ℚ
  fo : ℚ
  fc : ℚ
  fr : ℚ
  atr : ℚ
  side : Side
  rp : ℚ
  ap : ℚ
  prox : ℚ
  flag : ℚ
  score : ℚ
deriving DecidableEq, Repr

/-- Result of evaluating one reference timestamp `T` in one engine cycle
(`run_engine` lines 327-407, wall-clock expiry marking aside). -/
inductive Outcome where
  | notCandidate
  | noRevisit
  | noEntryBar
  | rejEntryMinute
  | rejEma
  | scored (cs : Sig)
deriving DecidableEq, Repr

/-- Evaluation of reference timestamp `T` against the fine history `df`:
qualification (`range ≥ 20`), revisit search, entry-minute confirmation,
EMA context gate, streaming percentiles and composite score. -/
def evalAt (df : List FineBar) (T : ℕ) : Outcome :=
  match (fiveOf df).find? (fun b => b.label == T) with
  | none => .notCandidate
  | some rrow =>
    if (20 : ℚ) ≤ rrow.range then
      match revisitOf df T rrow.c with
      | none => .noRevisit
      | some rbar =>
        let et := rbar.t + 1
        match df.find? (fun b => b.t == et) with
        | none => .noEntryBar
        | some ebar =>
          let side := if rrow.o < rrow.c then Side.long else Side.short
          if side = Side.long ∧ ¬ (ebar.o < ebar.c) then .rejEntryMinute
          else if side = Side.short ∧ ¬ (ebar.c < ebar.o) then .rejEntryMinute
          else
            let e20 := emaAt (2/21) df et
            let e50 := emaAt (2/51) df et
            if side = Side.long ∧ ¬ (e50 < e20) then .rejEma
            else if side = Side.short ∧ ¬ (e20 < e50) then .rejEma
            else
              let prior := ((fiveOf df).filter (fun b => decide ((20 : ℚ) ≤ b.range))).filter
                (fun b => decide (b.label ≤ T))
              let rp := lastRankPct (prior.map (·.range))
              let ap := lastRankPct (prior.map (·.atr))
              let prox := 1 - min (|ebar.o - rrow.c| / (if 0 < rrow.range then rrow.range else 1)) 1
              let flag : ℚ := if e50 < e20 then 1 else 0
              let score := (4/10) * rp + (3/10) * prox + (2/10) * ap + (1/10) * flag
              .scored
                { refT := T, revT := rbar.t, entryT := et, eo := ebar.o, ec := ebar.c
                  fo := rrow.o, fc := rrow.c, fr := rrow.range, atr := rrow.atr
                  side := side, rp := rp, ap := ap, prox := prox, flag := flag, score := score }
    else .notCandidate

/-- The score reached for `T`, when a terminal scoring decision is made. -/
def scoreAt (df : List FineBar) (T : ℕ) : Option ℚ :=
  match evalAt df T with
  | .scored cs => some cs.score
  | _ => none

/-- `if score >= cfg.score_threshold`: the chronological acceptance gate. -/
def acceptedAt (th : ℚ) (df : List FineBar) (T : ℕ) : Bool :=
  match evalAt df T with
  | .scored cs => decide (th ≤ cs.score)
  | _ => false

/-- `0.5 * (atr14 if not nan else 0)` — NaN is modelled as `none`
(rational data never produces it; loaded records may carry it). -/
def atrGuard : Option ℚ → ℚ
  | some a => a
  | none => 0

/-- Preliminary risk distance at acceptance time (lines 384-386):
`min(max(|entry_open - five_open|, 0.5*atr14), 20)`. -/
def tpPrelim (cs : Sig) : ℚ :=
  min (max |cs.eo - cs.fo| ((1/2) * cs.atr)) 20

/-- Target price from fill price and risk distance (lines 434-437). -/
def tpPrice (side : Side) (p d : ℚ) : ℚ :=
  match side with
  | .long => p + d
  | .short => p - d

/-- Stop price from fill price and risk distance (lines 434-437). -/
def slPrice (side : Side) (p d : ℚ) : ℚ :=
  match side with
  | .long => p - (1/2) * d
  | .short => p + (1/2) * d

/-- Risk distance recomputed at the realized fill price (lines 426-428,
identically lines 255-257 of the recovery path):
`min(max(|entry_price - five_open|, 0.5*guarded_atr), 20)`. -/
def tpDist (p fo : ℚ) (atr : Option ℚ) : ℚ :=
  min (max |p - fo| ((1/2) * atrGuard atr)) 20

/-! ### Durable pending log (`persist_pending_*`, lines 111-157)

A log line either parses to a JSON record having an `entry_time` key, or
is malformed (`json.loads` fails / the object has no `.get`). -/

inductive LogLine where
  | okLine (entryTime : String) (payload : String)
  | badLine (raw : String)
deriving DecidableEq, Repr

/-- `persist_pending_remove`: keep exactly the parseable lines whose
`entry_time` differs from the removed key; lines that fail to parse are
skipped (`except: continue`) and hence dropped from the rewrite. -/
def persistPendingRemove (lines : List LogLine) (k : String) : List LogLine :=
  lines.filter (fun ln =>
    match ln with
    | .okLine t _ => decide (t ≠ k)
    | .badLine _ => false)

/-! ### Recovery and dispatch of pending entries (lines 244-302, 409-451)

Wall-clock times in seconds.  `price et` models `et in df1_latest.index`
and `df1_latest.at[et,'open']` of the freshly fetched frame. -/

/-- The persisted projection of an accepted candidate that the recovery
and dispatch paths consume. -/
structure PEntry where
  et : ℕ
  fo : ℚ
  atr : Option ℚ
  side : Side
deriving DecidableEq, Repr

/-- An outbound execution signal (`send_signal` payload essentials). -/
structure ExecRec where
  et : ℕ
  price : ℚ
  tp : ℚ
  sl : ℚ
  side : Side
deriving DecidableEq, Repr

/-- In-memory pending map (as a list), durable log keys, emitted signals. -/
structure RState where
  pend : List PEntry
  logK : List ℕ
  sent : List ExecRec
deriving DecidableEq, Repr

def execRec (e : PEntry) (p : ℚ) : ExecRec :=
  { et := e.et, price := p, tp := tpPrice e.side p (tpDist p e.fo e.atr)
    sl := slPrice e.side p (tpDist p e.fo e.atr), side := e.side }

/-- Drop entry `e`: remove the durable record, pop the in-memory entry. -/
def dropE (s : RState) (e : PEntry) : RState :=
  { pend := s.pend.filter (fun x => decide (x.et ≠ e.et))
    logK := s.logK.filter (fun x => decide (x ≠ e.et)), sent := s.sent }

/-- Execute entry `e` at fill `p`: emit, remove record, pop entry. -/
def execE (s : RState) (e : PEntry) (p : ℚ) : RState :=
  { pend := s.pend.filter (fun x => decide (x.et ≠ e.et))
    logK := s.logK.filter (fun x => decide (x ≠ e.et)), sent := s.sent ++ [execRec e p] }

/-- Startup recovery for one loaded entry (lines 246-285): only entries
late by at most `allowed` seconds are touched; if the entry bar exists,
recompute the risk distance and either drop (degenerate) or execute and
remove; if the bar is missing, the inner lateness re-check (lines
280-283) can never fire inside the outer guard. -/
def recoveryStep (allowed now : ℕ) (price : ℕ → Option ℚ) (s : RState) (e : PEntry) : RState :=
  if e.et ≤ now ∧ now - e.et ≤ allowed then
    match price e.et with
    | some p =>
      if tpDist p e.fo e.atr ≤ 0 then dropE s e else execE s e p
    | none => if allowed < now - e.et then dropE s e else s
  else s

def recoveryPass (allowed now : ℕ) (price : ℕ → Option ℚ) (s : RState) : RState :=
  s.pend.foldl (recoveryStep allowed now price) s

/-- Main-loop expiry sweep (lines 296-302): entries whose scheduled
minute passed by more than `GRACE_SEC` are dropped and their durable
records removed. -/
def clearStep (grace now : ℕ) (s : RState) (e : PEntry) : RState :=
  if e.et + grace < now then dropE s e else s

def clearPass (grace now : ℕ) (s : RState) : RState :=
  s.pend.foldl (clearStep grace now) s

/-- Main-loop dispatch (lines 409-451): entries due within the grace
window are executed at the fresh entry-minute open; a missing bar or a
degenerate distance drops the entry instead. -/
def dispatchStep (grace now : ℕ) (price : ℕ → Option ℚ) (s : RState) (e : PEntry) : RState :=
  if e.et ≤ now ∧ now - e.et ≤ grace then
    match price e.et with
    | some p =>
      if tpDist p e.fo e.atr ≤ 0 then dropE s e else execE s e p
    | none => dropE s e
  else s

def dispatchPass (grace now : ℕ) (price : ℕ → Option ℚ) (s : RState) : RState :=
  s.pend.foldl (dispatchStep grace now price) s

/-- Startup recovery followed by the first main-loop cycle's pending
handling (expiry sweep then dispatch; the candidate-evaluation part of
the cycle does not touch existing pending entries). -/
def startupCycle (allowed grace now : ℕ) (price : ℕ → Option ℚ) (s : RState) : RState :=
  dispatchPass grace now price (clearPass grace now (recoveryPass allowed now price s))

/-! ### Lock-step of in-memory map and durable log (lines 394-402, 449-451)

Micro-operations at statement granularity over the map keys and the log
keys, in the exact order the source performs them. -/

structure KState where
  mp : List ℕ
  lg : List ℕ
deriving DecidableEq, Repr

inductive KOp where
  | mIns (k : ℕ)
  | mDel (k : ℕ)
  | lAdd (k : ℕ)
  | lDel (k : ℕ)
deriving DecidableEq, Repr

def kApply (s : KState) : KOp → KState
  | .mIns k => ⟨k :: s.mp.filter (fun x => decide (x ≠ k)), s.lg⟩
  | .mDel k => ⟨s.mp.filter (fun x => decide (x ≠ k)), s.lg⟩
  | .lAdd k => ⟨s.mp, s.lg ++ [k]⟩
  | .lDel k => ⟨s.mp, s.lg.filter (fun x => decide (x ≠ k))⟩

def kRun (s : KState) (ops : List KOp) : KState := ops.foldl kApply s

/-- Acceptance, in source order (lines 396-398): `pending_entries[entry_time] = cs`
first, `persist_pending_add(...)` second. -/
def acceptOps (k : ℕ) : List KOp := [.mIns k, .lAdd k]

/-- Removal, in source order (lines 450-451 and twins): `persist_pending_remove`
first, `pending_entries.pop` second. -/
def removeOps (k : ℕ) : List KOp := [.lDel k, .mDel k]

/-! ### Terminal decisions per reference timestamp (lines 214, 327-407)

An event trace abstraction of one `run_engine` invocation: every
rejection/expiry/acceptance step is guarded by `T not in seen_T` and
inserts `T`; execution and pending-drop steps consume the unique pending
map entry (keyed by entry time, value abstracted to its `T`). -/

/-- A session of 13 one-minute bars: the 9:20-bin (labels are minute
offsets here) has range 30 and qualifies; minute 12 revisits its close
108; minute 13 confirms long. -/
def dfA : List FineBar :=
  [⟨1, 100, 100, 100, 100⟩, ⟨2, 100, 101, 100, 101⟩, ⟨3, 101, 130, 101, 102⟩,
   ⟨4, 102, 103, 100, 103⟩, ⟨5, 103, 108, 103, 108⟩,
   ⟨6, 110, 112, 110, 111⟩, ⟨7, 111, 112, 110, 111⟩, ⟨8, 111, 112, 110, 112⟩,
   ⟨9, 112, 112, 110, 112⟩, ⟨10, 112, 112, 110, 112⟩, ⟨11, 112, 112, 110, 112⟩,
   ⟨12, 108, 109, 107, 109⟩, ⟨13, 109, 113, 109, 113⟩]

/-- Same history as `dfA` up to minute 12; only the entry-minute bar
(after the reference timestamp 5) differs. -/
def dfB : List FineBar :=
  [⟨1, 100, 100, 100, 100⟩, ⟨2, 100, 101, 100, 101⟩, ⟨3, 101, 130, 101, 102⟩,
   ⟨4, 102, 103, 100, 103⟩, ⟨5, 103, 108, 103, 108⟩,
   ⟨6, 110, 112, 110, 111⟩, ⟨7, 111, 112, 110, 111⟩, ⟨8, 111, 112, 110, 112⟩,
   ⟨9, 112, 112, 110, 112⟩, ⟨10, 112, 112, 110, 112⟩, ⟨11, 112, 112, 110, 112⟩,
   ⟨12, 108, 109, 107, 109⟩, ⟨13, 114, 120, 109, 120⟩]

/-- `dfA` extended by a much later bar; agrees with `dfA` on every bar
up to minute 26. -/
def dfAext : List FineBar := dfA ++ [⟨30, 100, 100, 100, 100⟩]

/-- The candidate signal the engine computes for `dfA` at reference 5. -/
def csA : Sig :=
  { refT := 5, revT := 12, entryT := 13, eo := 109, ec := 113
    fo := 100, fc := 108, fr := 30, atr := 30, side := Side.long
    rp := 1, ap := 1, prox := 29/30, flag := 1, score := 99/100 }

/-- The candidate signal the engine computes for `dfB` at reference 5. -/
def csB : Sig :=
  { refT := 5, revT := 12, entryT := 13, eo := 114, ec := 120
    fo := 100, fc := 108, fr := 30, atr := 30, side := Side.long
    rp := 1, ap := 1, prox := 4/5, flag := 1, score := 47/50 }

/-- The first seven bars of `dfA`: the 10-labelled coarse bin is still
in progress (only minutes 6 and 7 observed). -/
def df7 : List FineBar :=
  [⟨1, 100, 100, 100, 100⟩, ⟨2, 100, 101, 100, 101⟩, ⟨3, 101, 130, 101, 102⟩,
   ⟨4, 102, 103, 100, 103⟩, ⟨5, 103, 108, 103, 108⟩,
   ⟨6, 110, 112, 110, 111⟩, ⟨7, 111, 112, 110, 111⟩]

/-- The minute-8 bar that later completes more of the 10-labelled bin. -/
def bar8 : FineBar := ⟨8, 111, 112, 110, 112⟩

/-- A single fine bar sitting exactly at `T + 5` for `T = 5`, touching
the reference close 108. -/
def df6 : List FineBar := [⟨10, 108, 109, 107, 108⟩]

/-- The largest observed fine-bar timestamp (0 for an empty history). -/
def maxT (df : List FineBar) : ℕ := df.foldl (fun m b => max m b.t) 0

/-- A pending entry scheduled at second 1000 (reference open 100,
stored ATR 2, long side). -/
def eW : PEntry := ⟨1000, 100, some 2, Side.long⟩

/-- A data oracle that has the minute bar for second 1000 with open 105
and nothing else. -/
def priceW : ℕ → Option ℚ := fun t => if t == 1000 then some 105 else none

/-! ### Generic list lemmas -/

theorem find?_filter_imp {a : Type} (p q : a → Bool) (l : List a)
    (h : ∀ x, p x = true → q x = true) : (l.filter q).find? p = l.find? p := by
  induction l with
  | nil => rfl
  | cons x l ih =>
    by_cases hp : p x = true
    · rw [List.filter_cons, h x hp]
      simp [List.find?_cons, hp]
    · by_cases hq : q x = true <;>
        simp [List.filter_cons, hq, List.find?_cons, hp, ih]

theorem filter_filter_imp {a : Type} (p q : a → Bool) (l : List a)
    (h : ∀ x, p x = true → q x = true) : (l.filter q).filter p = l.filter p := by
  rw [List.filter_filter]
  apply List.filter_congr
  intro x _
  by_cases hp : p x = true
  · simp [hp, h x hp]
  · simp at hp
    simp [hp]

theorem head?_filter_eq_find? {a : Type} (p : a → Bool) (l : List a) :
    (l.filter p).head? = l.find? p := by
  induction l with
  | nil => rfl
  | cons x l ih =>
    by_cases hp : p x = true <;> simp [List.filter_cons, List.find?_cons, hp, ih]

theorem filter_eq_takeWhile_mono {a : Type} (f : a → Bool) (l : List a)
    (hs : l.Pairwise (fun x y => f y = true → f x = true)) :
    l.filter f = l.takeWhile f := by
  induction l with
  | nil => rfl
  | cons x l ih =>
    rw [List.pairwise_cons] at hs
    by_cases hx : f x = true
    · simp [List.filter_cons, List.takeWhile, hx, ih hs.2]
    · have hnil : l.filter f = [] := by
        apply List.filter_eq_nil_iff.mpr
        intro y hy
        intro hfy
        exact hx (hs.1 y hy hfy)
      simp [List.filter_cons, List.takeWhile, hx, hnil]

theorem dropWhile_false_mono {a : Type} (f : a → Bool) (l : List a)
    (hs : l.Pairwise (fun x y => f y = true → f x = true)) :
    ∀ y ∈ l.dropWhile f, f y = false := by
  induction l with
  | nil => simp [List.dropWhile]
  | cons x l ih =>
    rw [List.pairwise_cons] at hs
    by_cases hx : f x = true
    · simp only [List.dropWhile, hx]
      exact ih hs.2
    · simp only [List.dropWhile, hx, Bool.false_eq_true, if_false]
      intro y hy
      rcases List.mem_cons.mp hy with rfl | hy'
      · simpa using hx
      · by_cases hfy : f y = true
        · exact absurd (hs.1 y hy' hfy) hx
        · simpa using hfy

theorem dedup_append_filter (P : ℕ → Bool) (xs ys : List ℕ)
    (hy : ∀ y ∈ ys, P y = false) :
    ((xs ++ ys).dedup).filter P = (xs.dedup).filter P := by
  induction xs with
  | nil =>
    simp only [List.nil_append, List.dedup_nil, List.filter_nil]
    apply List.filter_eq_nil_iff.mpr
    intro y hyd
    simp [hy y (List.mem_dedup.mp hyd)]
  | cons x xs ih =>
    by_cases hxs : x ∈ xs
    · rw [List.cons_append, List.dedup_cons_of_mem (List.mem_append.mpr (Or.inl hxs)),
        ih, List.dedup_cons_of_mem hxs]
    · by_cases hxy : x ∈ ys
      · rw [List.cons_append, List.dedup_cons_of_mem (List.mem_append.mpr (Or.inr hxy)),
          ih, List.dedup_cons_of_not_mem hxs, List.filter_cons]
        simp [hy x hxy]
      · have hmem : x ∉ xs ++ ys := by
          intro hc
          rcases List.mem_append.mp hc with hc | hc
          · exact hxs hc
          · exact hxy hc
        rw [List.cons_append, List.dedup_cons_of_not_mem hmem,
          List.dedup_cons_of_not_mem hxs]
        rw [List.filter_cons, List.filter_cons, ih]

/-! ### Bin label and aggregation lemmas -/

theorem le_binLabel (t : ℕ) : t ≤ binLabel t := by
  have h1 := Nat.div_add_mod (t - 1) 5
  have h2 : (t - 1) % 5 < 5 := Nat.mod_lt _ (by omega)
  unfold binLabel
  omega

theorem binLabel_mono {a b : ℕ} (h : a ≤ b) : binLabel a ≤ binLabel b := by
  unfold binLabel
  have : (a - 1) / 5 ≤ (b - 1) / 5 := Nat.div_le_div_right (by omega)
  omega

theorem binLabel_mem_bin {t : ℕ} (ht : 1 ≤ t) : binLabel t - 5 < t ∧ t ≤ binLabel t := by
  refine ⟨?_, le_binLabel t⟩
  have h3 : (t - 1) / 5 * 5 ≤ t - 1 := Nat.div_mul_le_self (t - 1) 5
  unfold binLabel
  omega

theorem labels_sorted (df : List FineBar) (hs : TSorted df) :
    (labelsOf df).Pairwise (· < ·) := by
  have hle : (df.map (fun b => binLabel b.t)).Pairwise (· ≤ ·) := by
    rw [List.pairwise_map]
    exact hs.imp (fun hab => binLabel_mono (Nat.le_of_lt hab))
  have hd : (labelsOf df).Pairwise (· ≤ ·) :=
    hle.sublist (List.dedup_sublist _)
  have hne : (labelsOf df).Pairwise (· ≠ ·) := List.nodup_dedup _
  exact (hd.and hne).imp (fun hab => lt_of_le_of_ne hab.1 hab.2)

theorem trListAux_append (p : Option ℚ) (xs ys : List RawBar) :
    trListAux p (xs ++ ys) = trListAux p xs ++ trListAux (lastClose p xs) ys := by
  induction xs generalizing p with
  | nil => rfl
  | cons b rest ih => simp [trListAux, lastClose, ih]

theorem trListAux_length (p : Option ℚ) (xs : List RawBar) :
    (trListAux p xs).length = xs.length := by
  induction xs generalizing p with
  | nil => rfl
  | cons b rest ih => simp [trListAux, ih]

theorem trList_take (xs ys : List RawBar) :
    (trList (xs ++ ys)).take xs.length = trList xs := by
  rw [trList, trListAux_append]
  rw [← trListAux_length none xs]
  exact List.take_left _ _

theorem atrAt_append (xs ys : List RawBar) (i : ℕ) (hi : i < xs.length) :
    atrAt (trList (xs ++ ys)) i = atrAt (trList xs) i := by
  unfold atrAt
  have h : (trList (xs ++ ys)).take (i + 1) = (trList xs).take (i + 1) := by
    rw [trList, trListAux_append]
    rw [List.take_append_of_le_length (by rw [trListAux_length]; omega)]
    rfl
  rw [h]

theorem withAtr_take (xs ys : List RawBar) :
    (withAtr (xs ++ ys)).take xs.length = withAtr xs := by
  unfold withAtr
  rw [← List.map_take, List.take_range, List.length_append,
    Nat.min_eq_left (Nat.le_add_right _ _)]
  apply List.map_congr_left
  intro i hi
  rw [List.mem_range] at hi
  rw [List.getD_append _ _ _ _ hi, atrAt_append xs ys i hi]

theorem withAtr_length (rs : List RawBar) : (withAtr rs).length = rs.length := by
  unfold withAtr
  simp

theorem withAtr_label_map (rs : List RawBar) :
    (withAtr rs).map (·.label) = rs.map (·.label) := by
  apply List.ext_getElem
  · simp [withAtr_length]
  · intro i h1 h2
    unfold withAtr
    simp only [List.getElem_map, List.getElem_range]
    rw [List.getD_eq_getElem _ _ (by simpa using h2)]
theorem mkRaw_label (L : ℕ) (fs : List FineBar) : (mkRaw L fs).label = L := by
  cases fs <;> rfl

theorem withAtr_filter_le (A B : List RawBar) (T : ℕ)
    (hA : ∀ r ∈ A, r.label ≤ T) (hB : ∀ r ∈ B, ¬ (r.label ≤ T)) :
    (withAtr (A ++ B)).filter (fun b => decide (b.label ≤ T)) = withAtr A := by
  have hW : withAtr (A ++ B) = withAtr A ++ (withAtr (A ++ B)).drop A.length := by
    conv_lhs => rw [← List.take_append_drop A.length (withAtr (A ++ B))]
    rw [withAtr_take]
  rw [hW, List.filter_append]
  have h1 : (withAtr A).filter (fun b => decide (b.label ≤ T)) = withAtr A := by
    apply List.filter_eq_self.mpr
    intro b hb
    have hbl : b.label ∈ A.map (·.label) := by
      rw [← withAtr_label_map]
      exact List.mem_map_of_mem _ hb
    rcases List.mem_map.mp hbl with ⟨r, hr, hrl⟩
    simpa [← hrl] using hA r hr
  have h2 : ((withAtr (A ++ B)).drop A.length).filter (fun b => decide (b.label ≤ T)) = [] := by
    apply List.filter_eq_nil_iff.mpr
    intro b hb
    have hmem : b.label ∈ ((withAtr (A ++ B)).map (·.label)).drop A.length := by
      rw [← List.map_drop]
      exact List.mem_map_of_mem _ hb
    rw [withAtr_label_map, List.map_append, List.drop_left' (by simp)] at hmem
    rcases List.mem_map.mp hmem with ⟨r, hr, hrl⟩
    simp [← hrl, hB r hr]
  rw [h1, h2, List.append_nil]

theorem fiveOf_filter_le (df : List FineBar) (T N : ℕ) (hs : TSorted df) (hTN : T ≤ N) :
    (fiveOf (df.filter (fun b => decide (b.t ≤ N)))).filter (fun b => decide (b.label ≤ T)) =
    (fiveOf df).filter (fun b => decide (b.label ≤ T)) := by
  classical
  set f : FineBar → Bool := fun b => decide (b.t ≤ N) with hf
  have hmono : df.Pairwise (fun x y => f y = true → f x = true) := by
    apply hs.imp
    intro a b hab
    simp only [hf, decide_eq_true_eq]
    omega
  have hsplit : df = df.filter f ++ df.dropWhile f := by
    conv_lhs => rw [← List.takeWhile_append_dropWhile f df]
    rw [filter_eq_takeWhile_mono f df hmono]
  have hrest : ∀ b ∈ df.dropWhile f, ¬ (b.t ≤ N) := by
    intro b hb
    have := dropWhile_false_mono f df hmono b hb
    simpa [hf] using this
  set df' := df.filter f with hdf'
  have hs' : TSorted df' := hs.sublist (List.filter_sublist df)
  -- label lists agree below T
  set P : ℕ → Bool := fun L => decide (L ≤ T) with hP
  have hlabeq : (labelsOf df).filter P = (labelsOf df').filter P := by
    conv_lhs => rw [hsplit]
    unfold labelsOf
    rw [List.map_append]
    apply dedup_append_filter
    intro y hy
    rcases List.mem_map.mp hy with ⟨b, hb, rfl⟩
    have h1 : ¬ (b.t ≤ N) := hrest b hb
    have h2 := le_binLabel b.t
    simp only [hP, decide_eq_false_iff_not]
    omega
  have hlmono : ∀ m : List ℕ, m.Pairwise (· < ·) →
      m.Pairwise (fun x y => P y = true → P x = true) := by
    intro m hm
    apply hm.imp
    intro a b hab
    simp only [hP, decide_eq_true_eq]
    omega
  have hUsplit : labelsOf df = (labelsOf df).takeWhile P ++ (labelsOf df).dropWhile P :=
    (List.takeWhile_append_dropWhile P _).symm
  have hU'split : labelsOf df' = (labelsOf df').takeWhile P ++ (labelsOf df').dropWhile P :=
    (List.takeWhile_append_dropWhile P _).symm
  have hUU' : (labelsOf df).takeWhile P = (labelsOf df').takeWhile P := by
    rw [← filter_eq_takeWhile_mono P _ (hlmono _ (labels_sorted df hs)),
      ← filter_eq_takeWhile_mono P _ (hlmono _ (labels_sorted df' hs'))]
    exact hlabeq
  -- bins agree for small labels
  have hbin : ∀ L ≤ N, binOf df' L = binOf df L := by
    intro L hL
    unfold binOf
    rw [hdf', hf]
    apply filter_filter_imp
    intro b hb
    simp only [Bool.and_eq_true, decide_eq_true_eq] at hb ⊢
    omega
  have hUle : ∀ L ∈ (labelsOf df).takeWhile P, L ≤ T := by
    intro L hL
    have := List.mem_takeWhile_imp hL
    simpa [hP] using this
  have hVgt : ∀ m : List ℕ, m.Pairwise (· < ·) → ∀ L ∈ m.dropWhile P, ¬ (L ≤ T) := by
    intro m hm L hL
    have := dropWhile_false_mono P m (hlmono m hm) L hL
    simpa [hP] using this
  -- assemble both sides via withAtr_filter_le
  have hside : ∀ (dd : List FineBar), TSorted dd →
      (∀ L ≤ N, binOf dd L = binOf df L) →
      (labelsOf dd).takeWhile P = (labelsOf df).takeWhile P →
      (fiveOf dd).filter (fun b => decide (b.label ≤ T)) =
        withAtr (((labelsOf df).takeWhile P).map (fun L => mkRaw L (binOf df L))) := by
    intro dd hsd hbind hlabd
    have hsplitd : labelsOf dd = (labelsOf dd).takeWhile P ++ (labelsOf dd).dropWhile P :=
      (List.takeWhile_append_dropWhile P _).symm
    have : fiveOf dd = withAtr ((((labelsOf dd).takeWhile P).map (fun L => mkRaw L (binOf dd L))) ++
        (((labelsOf dd).dropWhile P).map (fun L => mkRaw L (binOf dd L)))) := by
      unfold fiveOf rawBars
      rw [← List.map_append, ← hsplitd]
    rw [this, withAtr_filter_le]
    · congr 1
      rw [hlabd]
      apply List.map_congr_left
      intro L hL
      have hLT : L ≤ T := hUle L hL
      rw [hbind L (le_trans hLT hTN)]
    · intro r hr
      rcases List.mem_map.mp hr with ⟨L, hL, rfl⟩
      rw [mkRaw_label]
      rw [hlabd] at hL
      exact hUle L hL
    · intro r hr
      rcases List.mem_map.mp hr with ⟨L, hL, rfl⟩
      rw [mkRaw_label]
      exact hVgt _ (labels_sorted dd hsd) L hL
  rw [hside df' hs' hbin hUU'.symm, hside df hs (fun L _ => rfl) rfl]
theorem find?_split {a : Type} (p : a → Bool) :
    ∀ (l : List a) (x : a), l.find? p = some x →
      ∃ u v, l = u ++ x :: v ∧ ∀ y ∈ u, p y = false := by
  intro l
  induction l with
  | nil => intro x h; cases h
  | cons z l ih =>
    intro x h
    by_cases hz : p z = true
    · rw [List.find?_cons_of_pos _ hz] at h
      refine ⟨[], l, by simp [(Option.some_inj.mp h).symm], by simp⟩
    · rw [List.find?_cons_of_neg _ (by simpa using hz)] at h
      rcases ih x h with ⟨u, v, heq, hu⟩
      refine ⟨z :: u, v, by simp [heq], ?_⟩
      intro y hy
      rcases List.mem_cons.mp hy with rfl | hy'
      · simpa using hz
      · exact hu y hy'

/-- When a revisit bar is found it lies in the inclusive window
`[T+5, T+20]` and touches the reference close. -/
theorem revisitOf_spec {df : List FineBar} {T : ℕ} {rc : ℚ} {b : FineBar}
    (h : revisitOf df T rc = some b) :
    b ∈ df ∧ (T + 5 ≤ b.t ∧ b.t ≤ T + 20) ∧ (b.l ≤ rc ∧ rc ≤ b.h) := by
  unfold revisitOf at h
  rw [head?_filter_eq_find?] at h
  have hmem := List.mem_of_find?_eq_some h
  have htouch := List.find?_some h
  have hwin := List.of_mem_filter hmem
  have hmemdf := List.mem_of_mem_filter hmem
  simp only [Bool.and_eq_true, decide_eq_true_eq] at htouch hwin
  exact ⟨hmemdf, hwin, htouch⟩

/-- Truncation: evaluating `T` sees no fine bar after minute `T+21`
(the percentile universe stops at `T`, the revisit window at `T+20`,
the entry bar and both EMA reads at `revisit+1 ≤ T+21`). -/
theorem evalAt_truncate (df : List FineBar) (T : ℕ) (hs : TSorted df) :
    evalAt (df.filter (fun b => decide (b.t ≤ T + 21))) T = evalAt df T := by
  set N := T + 21 with hN
  set df' := df.filter (fun b => decide (b.t ≤ N)) with hdf'
  have hfind : (fiveOf df').find? (fun b => b.label == T) =
      (fiveOf df).find? (fun b => b.label == T) := by
    have himp : ∀ b : CoarseBar, (b.label == T) = true → decide (b.label ≤ T) = true := by
      intro b hb
      simp only [beq_iff_eq] at hb
      simp [hb]
    rw [← find?_filter_imp _ _ (fiveOf df') himp, ← find?_filter_imp _ _ (fiveOf df) himp,
      fiveOf_filter_le df T N hs (by omega)]
  have hrev : ∀ rc, revisitOf df' T rc = revisitOf df T rc := by
    intro rc
    unfold revisitOf
    rw [hdf', filter_filter_imp (fun b => decide (T + 5 ≤ b.t) && decide (b.t ≤ T + 20))
      (fun b => decide (b.t ≤ N)) df (by
        intro b hb
        simp only [Bool.and_eq_true, decide_eq_true_eq] at hb ⊢
        omega)]
  have hema : ∀ (a : ℚ) (e : ℕ), e ≤ N → emaAt a df' e = emaAt a df e := by
    intro a e he
    unfold emaAt
    rw [hdf', filter_filter_imp (fun b => decide (b.t ≤ e))
      (fun b => decide (b.t ≤ N)) df (by
        intro b hb
        simp only [decide_eq_true_eq] at hb ⊢
        omega)]
  have hent : ∀ e : ℕ, e ≤ N → df'.find? (fun b => b.t == e) = df.find? (fun b => b.t == e) := by
    intro e he
    rw [hdf']
    apply find?_filter_imp
    intro b hb
    simp only [beq_iff_eq] at hb
    simp only [decide_eq_true_eq]
    omega
  have hprior : ((fiveOf df').filter (fun b => decide ((20 : ℚ) ≤ b.range))).filter
        (fun b => decide (b.label ≤ T)) =
      ((fiveOf df).filter (fun b => decide ((20 : ℚ) ≤ b.range))).filter
        (fun b => decide (b.label ≤ T)) := by
    rw [List.filter_comm, hdf', fiveOf_filter_le df T N hs (by omega), List.filter_comm]
  unfold evalAt
  rw [hfind]
  cases hF : (fiveOf df).find? (fun b => b.label == T) with
  | none => rfl
  | some rrow =>
    simp only
    by_cases h20 : (20 : ℚ) ≤ rrow.range
    · rw [if_pos h20, if_pos h20, hrev rrow.c]
      cases hR : revisitOf df T rrow.c with
      | none => rfl
      | some rbar =>
        have hrb : rbar.t ≤ T + 20 := (revisitOf_spec hR).2.1.2
        simp only
        rw [hent (rbar.t + 1) (by omega)]
        cases hE : df.find? (fun b => b.t == rbar.t + 1) with
        | none => rfl
        | some ebar =>
          simp only [hema (2/21) (rbar.t + 1) (by omega), hema (2/51) (rbar.t + 1) (by omega),
            hprior]
    · rw [if_neg h20, if_neg h20]
/-! ### Rank bounds and ATR positivity -/

theorem countP_disjoint_le_length {a : Type} (p q : a → Bool) (l : List a)
    (h : ∀ x ∈ l, ¬(p x = true ∧ q x = true)) :
    l.countP p + l.countP q ≤ l.length := by
  induction l with
  | nil => simp
  | cons x l ih =>
    have hx := h x (List.mem_cons_self x l)
    have ihl := ih (fun y hy => h y (List.mem_cons_of_mem x hy))
    by_cases hp : p x = true
    · have hq : ¬ q x = true := fun hq => hx ⟨hp, hq⟩
      rw [List.countP_cons_of_pos _ _ hp, List.countP_cons_of_neg _ _ hq]
      simp only [List.length_cons]
      omega
    · rw [List.countP_cons_of_neg _ _ hp, List.countP_cons]
      simp only [List.length_cons]
      by_cases hq : q x = true <;> simp [hq] <;> omega

theorem rankPct_bounds (xs : List ℚ) (v : ℚ) (hv : v ∈ xs) :
    0 ≤ rankPct xs v ∧ rankPct xs v ≤ 1 := by
  have hn : 0 < xs.length := List.length_pos.mpr (List.ne_nil_of_mem hv)
  have hEq : 0 < xs.countP (fun x => decide (x = v)) := by
    rw [List.countP_pos]
    exact ⟨v, hv, by simp⟩
  have hsum : xs.countP (fun x => decide (x < v)) + xs.countP (fun x => decide (x = v)) ≤
      xs.length := by
    apply countP_disjoint_le_length
    intro x _ hpq
    simp only [decide_eq_true_eq] at hpq
    exact absurd hpq.2 (ne_of_lt hpq.1)
  unfold rankPct
  set cl := xs.countP (fun x => decide (x < v)) with hcl
  set ce := xs.countP (fun x => decide (x = v)) with hce
  constructor
  · apply div_nonneg _ (by positivity)
    positivity
  · rw [div_le_one (by positivity)]
    have h1 : ((ce : ℚ) + 1) / 2 ≤ (ce : ℚ) := by
      rw [div_le_iff (by norm_num)]
      have : (1 : ℚ) ≤ (ce : ℚ) := by exact_mod_cast hEq
      linarith
    have h2 : (cl : ℚ) + (ce : ℚ) ≤ (xs.length : ℚ) := by exact_mod_cast hsum
    linarith

theorem getLast?_mem {a : Type} {xs : List a} {v : a} (h : xs.getLast? = some v) : v ∈ xs := by
  induction xs with
  | nil => cases h
  | cons x l ih =>
    cases l with
    | nil =>
      simp [List.getLast?] at h
      simp [h]
    | cons y m =>
      rw [List.getLast?_cons_cons] at h
      exact List.mem_cons_of_mem x (ih h)

theorem lastRankPct_bounds (xs : List ℚ) (hne : xs ≠ []) :
    0 ≤ lastRankPct xs ∧ lastRankPct xs ≤ 1 := by
  unfold lastRankPct
  cases hl : xs.getLast? with
  | none => exact absurd (List.getLast?_eq_none_iff.mp hl) hne
  | some v => exact rankPct_bounds xs v (getLast?_mem hl)

theorem foldl_max_ge (x : ℚ) (xs : List ℚ) : x ≤ maxQ x xs := by
  unfold maxQ
  induction xs generalizing x with
  | nil => simp
  | cons y l ih =>
    simp only [List.foldl_cons]
    exact le_trans (le_max_left x y) (ih (max x y))

theorem foldl_min_le (x : ℚ) (xs : List ℚ) : minQ x xs ≤ x := by
  unfold minQ
  induction xs generalizing x with
  | nil => simp
  | cons y l ih =>
    simp only [List.foldl_cons]
    exact le_trans (ih (min x y)) (min_le_left x y)

theorem labelsOf_mem_bin {df : List FineBar} (hwf : WF df) {L : ℕ}
    (hL : L ∈ labelsOf df) : ∃ b, b ∈ binOf df L := by
  rcases List.mem_map.mp (List.mem_dedup.mp hL) with ⟨b, hb, rfl⟩
  have ht := (hwf b hb).1
  have hbin := binLabel_mem_bin ht
  refine ⟨b, List.mem_filter.mpr ⟨hb, ?_⟩⟩
  simp only [Bool.and_eq_true, decide_eq_true_eq]
  exact ⟨hbin.1, hbin.2⟩

theorem rawBars_lh {df : List FineBar} (hwf : WF df) :
    ∀ r ∈ rawBars df, r.l ≤ r.h := by
  intro r hr
  rcases List.mem_map.mp hr with ⟨L, hL, rfl⟩
  rcases labelsOf_mem_bin hwf hL with ⟨b, hb⟩
  rcases hbin : binOf df L with _ | ⟨x, rest⟩
  · rw [hbin] at hb
    cases hb
  · have hx : x ∈ df := List.mem_of_mem_filter (hbin ▸ List.mem_cons_self x rest)
    have hxlh := (hwf x hx).2
    unfold mkRaw
    simp only
    calc minQ x.l (rest.map (·.l)) ≤ x.l := foldl_min_le _ _
    _ ≤ x.h := hxlh
    _ ≤ maxQ x.h (rest.map (·.h)) := foldl_max_ge _ _

theorem trListAux_nonneg {rs : List RawBar} (hlh : ∀ r ∈ rs, r.l ≤ r.h) (p : Option ℚ) :
    ∀ x ∈ trListAux p rs, 0 ≤ x := by
  induction rs generalizing p with
  | nil => simp [trListAux]
  | cons b rest ih =>
    intro x hx
    rcases List.mem_cons.mp hx with rfl | hx'
    · have hb := hlh b (List.mem_cons_self b rest)
      cases p with
      | none => simpa [trOf] using hb
      | some pc =>
        unfold trOf
        have h1 : (0 : ℚ) ≤ b.h - b.l := by linarith
        exact le_trans h1 (le_max_left _ _)
    · exact ih (fun r hr => hlh r (List.mem_cons_of_mem b hr)) (some b.c) x hx'

theorem trListAux_getD_ge (rs : List RawBar) (p : Option ℚ) (i : ℕ) (hi : i < rs.length) :
    (rs.getD i default).h - (rs.getD i default).l ≤ (trListAux p rs).getD i 0 := by
  induction rs generalizing p i with
  | nil => simp at hi
  | cons b rest ih =>
    cases i with
    | zero =>
      simp only [List.getD_cons_zero, trListAux]
      cases p with
      | none => simp [trOf]
      | some pc => exact le_max_left _ _
    | succ j =>
      simp only [List.getD_cons_succ, trListAux]
      exact ih (some b.c) j (by simpa using hi)

theorem atrAt_pos (trs : List ℚ) (i : ℕ) (hi : i < trs.length)
    (hnn : ∀ x ∈ trs, 0 ≤ x) (hv : (20 : ℚ) ≤ trs.getD i 0) : 0 < atrAt trs i := by
  have hmem : trs.getD i 0 ∈ (trs.take (i + 1)).drop (i + 1 - 14) := by
    have hval : ((trs.take (i + 1)).drop (i + 1 - 14))[((i + 1) - (i + 1 - 14)) - 1]? =
        some (trs.getD i 0) := by
      rw [List.getElem?_drop, List.getElem?_take, if_pos (by omega),
        (by omega : (i + 1 - 14) + ((i + 1) - (i + 1 - 14) - 1) = i),
        List.getElem?_eq_getElem hi, List.getD_eq_getElem trs 0 hi]
    exact List.getElem?_mem hval
  have hsum : (20 : ℚ) ≤ ((trs.take (i + 1)).drop (i + 1 - 14)).sum := by
    have hnnw : ∀ x ∈ (trs.take (i + 1)).drop (i + 1 - 14), (0 : ℚ) ≤ x := by
      intro x hx
      exact hnn x (List.mem_of_mem_take (List.mem_of_mem_drop hx))
    exact le_trans hv (List.single_le_sum hnnw _ hmem)
  have hlen : 0 < ((trs.take (i + 1)).drop (i + 1 - 14)).length := by
    simp only [List.length_drop, List.length_take]
    omega
  show (0 : ℚ) <
    ((trs.take (i + 1)).drop (i + 1 - 14)).sum / (((trs.take (i + 1)).drop (i + 1 - 14)).length : ℚ)
  apply div_pos (by linarith)
  exact_mod_cast hlen

theorem fiveOf_atr_pos {df : List FineBar} (hwf : WF df) :
    ∀ cb ∈ fiveOf df, (20 : ℚ) ≤ cb.range → 0 < cb.atr := by
  intro cb hcb hrange
  unfold fiveOf withAtr at hcb
  simp only [List.mem_map, List.mem_range] at hcb
  rcases hcb with ⟨i, hi, rfl⟩
  simp only
  set rs := rawBars df with hrs
  apply atrAt_pos
  · rw [trList, trListAux_length]
    exact hi
  · exact trListAux_nonneg (rawBars_lh hwf) none
  · simp only at hrange
    calc (20 : ℚ) ≤ (rs.getD i default).h - (rs.getD i default).l := hrange
    _ ≤ (trList rs).getD i 0 := trListAux_getD_ge rs none i hi
/-- Inversion of a successful scoring evaluation: the reference row is a
qualifying coarse bar, the candidate fields copy it, and the score is
the stated convex combination over the causal percentile universe. -/
theorem evalAt_scored_inv {df : List FineBar} {T : ℕ} {cs : Sig}
    (h : evalAt df T = .scored cs) :
    ∃ rrow ∈ fiveOf df,
      (20 : ℚ) ≤ rrow.range ∧
      cs.fo = rrow.o ∧ cs.fc = rrow.c ∧ cs.fr = rrow.range ∧ cs.atr = rrow.atr ∧
      cs.prox = 1 - min (|cs.eo - cs.fc| / (if 0 < cs.fr then cs.fr else 1)) 1 ∧
      (cs.flag = 0 ∨ cs.flag = 1) ∧
      cs.score = (4/10) * cs.rp + (3/10) * cs.prox + (2/10) * cs.ap + (1/10) * cs.flag ∧
      cs.rp = lastRankPct ((((fiveOf df).filter (fun b => decide ((20 : ℚ) ≤ b.range))).filter
        (fun b => decide (b.label ≤ T))).map (·.range)) ∧
      cs.ap = lastRankPct ((((fiveOf df).filter (fun b => decide ((20 : ℚ) ≤ b.range))).filter
        (fun b => decide (b.label ≤ T))).map (·.atr)) ∧
      rrow ∈ ((fiveOf df).filter (fun b => decide ((20 : ℚ) ≤ b.range))).filter
        (fun b => decide (b.label ≤ T)) := by
  unfold evalAt at h
  cases hF : (fiveOf df).find? (fun b => b.label == T) with
  | none =>
    rw [hF] at h
    exact Outcome.noConfusion h
  | some rrow =>
    rw [hF] at h
    dsimp only at h
    have hlab : rrow.label = T := by
      have := List.find?_some hF
      simpa using this
    by_cases h20 : (20 : ℚ) ≤ rrow.range
    · rw [if_pos h20] at h
      cases hR : revisitOf df T rrow.c with
      | none =>
        rw [hR] at h
        dsimp only at h
        exact Outcome.noConfusion h
      | some rbar =>
        rw [hR] at h
        dsimp only at h
        cases hE : df.find? (fun b => b.t == rbar.t + 1) with
        | none =>
          rw [hE] at h
          exact Outcome.noConfusion h
        | some ebar =>
          rw [hE] at h
          dsimp only at h
          split at h
          all_goals split at h
          all_goals try exact Outcome.noConfusion h
          all_goals split at h
          all_goals try exact Outcome.noConfusion h
          all_goals split at h
          all_goals try exact Outcome.noConfusion h
          all_goals split at h
          all_goals try exact Outcome.noConfusion h
          all_goals rw [Outcome.scored.injEq] at h
          all_goals subst h
          all_goals refine ⟨rrow, List.mem_of_find?_eq_some hF, h20, rfl, rfl, rfl, rfl, rfl, ?_,
            rfl, rfl, rfl, ?_⟩
          all_goals try (refine List.mem_filter.mpr ⟨List.mem_filter.mpr
            ⟨List.mem_of_find?_eq_some hF, by simpa using h20⟩, by simp [hlab]⟩)
          all_goals split
          all_goals norm_num
          all_goals exact le_or_lt _ _
    · rw [if_neg h20] at h
      exact Outcome.noConfusion h
/-! ### Single-terminal-decision machinery -/

theorem revisitOf_first {df : List FineBar} {T : ℕ} {rc : ℚ} {b : FineBar}
    (hs : TSorted df) (h : revisitOf df T rc = some b) :
    ∀ b' ∈ df, b'.t < b.t →
      ¬(T + 5 ≤ b'.t ∧ b'.t ≤ T + 20 ∧ b'.l ≤ rc ∧ rc ≤ b'.h) := by
  intro b' hb' hlt hcontra
  unfold revisitOf at h
  rw [head?_filter_eq_find?] at h
  rcases find?_split _ _ _ h with ⟨u, v, hsplit, hu⟩
  have hb'f : b' ∈ df.filter (fun x => decide (T + 5 ≤ x.t) && decide (x.t ≤ T + 20)) := by
    apply List.mem_filter.mpr
    refine ⟨hb', ?_⟩
    simp only [Bool.and_eq_true, decide_eq_true_eq]
    exact ⟨hcontra.1, hcontra.2.1⟩
  rw [hsplit] at hb'f
  rcases List.mem_append.mp hb'f with hbu | hbv
  · have hfalse := hu b' hbu
    simp only [Bool.and_eq_true, decide_eq_true_eq] at hfalse
    rw [Bool.and_eq_false_iff] at hfalse
    rcases hfalse with hf | hf <;> simp only [decide_eq_false_iff_not] at hf
    · exact hf hcontra.2.2.1
    · exact hf hcontra.2.2.2
  · rcases List.mem_cons.mp hbv with rfl | hbv'
    · exact absurd hlt (lt_irrefl _)
    · have hsf : (df.filter (fun x => decide (T + 5 ≤ x.t) && decide (x.t ≤ T + 20))).Pairwise
          (fun a c => a.t < c.t) := hs.sublist (List.filter_sublist df)
      rw [hsplit] at hsf
      have hpair := (List.pairwise_append.mp hsf).2.1
      rw [List.pairwise_cons] at hpair
      exact absurd hlt (not_lt.mpr (le_of_lt (hpair.1 b' hbv')))

theorem le_foldl_maxT (df : List FineBar) (a : ℕ) :
    a ≤ df.foldl (fun m b => max m b.t) a := by
  induction df generalizing a with
  | nil => simp
  | cons x df ih => exact le_trans (le_max_left a x.t) (ih (max a x.t))

theorem elem_le_foldl_maxT (df : List FineBar) (a : ℕ) :
    ∀ b ∈ df, b.t ≤ df.foldl (fun m b => max m b.t) a := by
  induction df generalizing a with
  | nil => simp
  | cons x df ih =>
    intro b hb
    rcases List.mem_cons.mp hb with rfl | hb'
    · exact le_trans (le_max_right a b.t) (le_foldl_maxT df (max a b.t))
    · exact ih (max a x.t) b hb'

theorem foldl_maxT_mem (df : List FineBar) (a : ℕ) :
    df.foldl (fun m b => max m b.t) a = a ∨
      ∃ b ∈ df, df.foldl (fun m b => max m b.t) a = b.t := by
  induction df generalizing a with
  | nil => exact Or.inl rfl
  | cons x df ih =>
    rcases ih (max a x.t) with hz | ⟨b, hb, hN⟩
    · rcases Nat.le_total x.t a with hle | hle
      · left
        simp only [List.foldl_cons, hz]
        omega
      · right
        refine ⟨x, List.mem_cons_self x df, ?_⟩
        simp only [List.foldl_cons, hz]
        omega
    · exact Or.inr ⟨b, List.mem_cons_of_mem x hb, hN⟩

theorem elem_le_maxT (df : List FineBar) : ∀ b ∈ df, b.t ≤ maxT df :=
  elem_le_foldl_maxT df 0

/-- A coarse bar for a fully elapsed bin is stable: once some observed
fine bar has timestamp at or past the label, later fine bars never
change the exposed bar (OHLC, range or ATR). -/
theorem fiveOf_stable (df ext : List FineBar) (L : ℕ) (hs : TSorted (df ++ ext))
    (hL : ∃ b ∈ df, L ≤ b.t) :
    (fiveOf (df ++ ext)).find? (fun b => b.label == L) =
    (fiveOf df).find? (fun b => b.label == L) := by
  rcases hL with ⟨b0, hb0, hLb0⟩
  have hsplit := (List.pairwise_append.mp hs).2.2
  have hext : ∀ e ∈ ext, ¬(e.t ≤ maxT df) := by
    intro e he hle
    rcases foldl_maxT_mem df 0 with hz | ⟨bm, hbm, hN⟩
    · have h1 := elem_le_maxT df b0 hb0
      have h2 := hsplit b0 hb0 e he
      unfold maxT at h1 hle
      omega
    · have h2 := hsplit bm hbm e he
      unfold maxT at hle
      omega
  have hfilter : (df ++ ext).filter (fun b => decide (b.t ≤ maxT df)) = df := by
    rw [List.filter_append,
      List.filter_eq_self.mpr (by
        intro b hb
        simpa using elem_le_maxT df b hb),
      List.filter_eq_nil_iff.mpr (by
        intro e he
        simpa using hext e he),
      List.append_nil]
  have hLN : L ≤ maxT df := le_trans hLb0 (elem_le_maxT df b0 hb0)
  have himp : ∀ b : CoarseBar, (b.label == L) = true → decide (b.label ≤ L) = true := by
    intro b hb
    simp only [beq_iff_eq] at hb
    simp [hb]
  rw [← find?_filter_imp _ _ (fiveOf (df ++ ext)) himp, ← find?_filter_imp _ _ (fiveOf df) himp,
    ← fiveOf_filter_le (df ++ ext) L (maxT df) hs hLN, hfilter]
/-! ### Concrete evaluations -/

theorem rawA : rawBars dfA =
    [⟨5, 100, 130, 100, 108⟩, ⟨10, 110, 112, 110, 112⟩, ⟨15, 112, 113, 107, 113⟩] := by
  have h : rawBars dfA = [mkRaw 5 (binOf dfA 5), mkRaw 10 (binOf dfA 10), mkRaw 15 (binOf dfA 15)] := rfl
  have h5 : binOf dfA 5 = [⟨1, 100, 100, 100, 100⟩, ⟨2, 100, 101, 100, 101⟩, ⟨3, 101, 130, 101, 102⟩,
      ⟨4, 102, 103, 100, 103⟩, ⟨5, 103, 108, 103, 108⟩] := rfl
  have h10 : binOf dfA 10 = [⟨6, 110, 112, 110, 111⟩, ⟨7, 111, 112, 110, 111⟩, ⟨8, 111, 112, 110, 112⟩,
      ⟨9, 112, 112, 110, 112⟩, ⟨10, 112, 112, 110, 112⟩] := rfl
  have h15 : binOf dfA 15 = [⟨11, 112, 112, 110, 112⟩, ⟨12, 108, 109, 107, 109⟩,
      ⟨13, 109, 113, 109, 113⟩] := rfl
  rw [h, h5, h10, h15]
  norm_num [mkRaw, maxQ, minQ, List.foldl, max_def, min_def, RawBar.mk.injEq]

theorem fiveA : fiveOf dfA =
    [⟨5, 100, 130, 100, 108, 30, 30⟩, ⟨10, 110, 112, 110, 112, 2, 17⟩,
     ⟨15, 112, 113, 107, 113, 6, 40/3⟩] := by
  rw [fiveOf, rawA]
  norm_num [withAtr, trList, trListAux, trOf, atrAt, List.range, List.range.loop,
    List.take, List.drop, List.sum_cons, max_def, min_def, abs, CoarseBar.mk.injEq]

theorem revA : revisitOf dfA 5 108 = some ⟨12, 108, 109, 107, 109⟩ := by
  have h : dfA.filter (fun b => decide (5 + 5 ≤ b.t) && decide (b.t ≤ 5 + 20)) =
      [⟨10, 112, 112, 110, 112⟩, ⟨11, 112, 112, 110, 112⟩,
       ⟨12, 108, 109, 107, 109⟩, ⟨13, 109, 113, 109, 113⟩] := rfl
  rw [revisitOf, h]
  norm_num [List.filter_cons, List.filter_nil]

theorem emaA : emaAt (2/51) dfA 13 < emaAt (2/21) dfA 13 := by
  have h : (dfA.filter (fun b => decide (b.t ≤ 13))).map (·.c) =
      [100, 101, 102, 103, 108, 111, 111, 112, 112, 112, 112, 109, 113] := rfl
  rw [emaAt, emaAt, h]
  norm_num [List.foldl, emaStep]

theorem evalA : evalAt dfA 5 = .scored csA := by
  rw [evalAt, fiveA]
  have hf : List.find? (fun b => b.label == 5)
      [(⟨5, 100, 130, 100, 108, 30, 30⟩ : CoarseBar), ⟨10, 110, 112, 110, 112, 2, 17⟩,
       ⟨15, 112, 113, 107, 113, 6, 40/3⟩] = some ⟨5, 100, 130, 100, 108, 30, 30⟩ := rfl
  rw [hf]
  simp only [revA]
  have he : List.find? (fun b => b.t == 12 + 1) dfA = some ⟨13, 109, 113, 109, 113⟩ := rfl
  rw [he]
  have hq : List.filter (fun b => decide (b.label ≤ 5))
      (List.filter (fun b => decide ((20 : ℚ) ≤ b.range))
        [(⟨5, 100, 130, 100, 108, 30, 30⟩ : CoarseBar), ⟨10, 110, 112, 110, 112, 2, 17⟩,
         ⟨15, 112, 113, 107, 113, 6, 40/3⟩]) = [⟨5, 100, 130, 100, 108, 30, 30⟩] := by
    norm_num [List.filter_cons, List.filter_nil]
  norm_num [hq, emaA, emaA.not_lt, csA, lastRankPct, rankPct, List.countP_cons, List.countP_nil,
    Sig.mk.injEq, abs, max_def, min_def]
  simp

theorem rawB : rawBars dfB =
    [⟨5, 100, 130, 100, 108⟩, ⟨10, 110, 112, 110, 112⟩, ⟨15, 112, 120, 107, 120⟩] := by
  have h : rawBars dfB = [mkRaw 5 (binOf dfB 5), mkRaw 10 (binOf dfB 10), mkRaw 15 (binOf dfB 15)] := rfl
  have h5 : binOf dfB 5 = [⟨1, 100, 100, 100, 100⟩, ⟨2, 100, 101, 100, 101⟩, ⟨3, 101, 130, 101, 102⟩,
      ⟨4, 102, 103, 100, 103⟩, ⟨5, 103, 108, 103, 108⟩] := rfl
  have h10 : binOf dfB 10 = [⟨6, 110, 112, 110, 111⟩, ⟨7, 111, 112, 110, 111⟩, ⟨8, 111, 112, 110, 112⟩,
      ⟨9, 112, 112, 110, 112⟩, ⟨10, 112, 112, 110, 112⟩] := rfl
  have h15 : binOf dfB 15 = [⟨11, 112, 112, 110, 112⟩, ⟨12, 108, 109, 107, 109⟩,
      ⟨13, 114, 120, 109, 120⟩] := rfl
  rw [h, h5, h10, h15]
  norm_num [mkRaw, maxQ, minQ, List.foldl, max_def, min_def, RawBar.mk.injEq]

theorem fiveB : fiveOf dfB =
    [⟨5, 100, 130, 100, 108, 30, 30⟩, ⟨10, 110, 112, 110, 112, 2, 17⟩,
     ⟨15, 112, 120, 107, 120, 13, 47/3⟩] := by
  rw [fiveOf, rawB]
  norm_num [withAtr, trList, trListAux, trOf, atrAt, List.range, List.range.loop,
    List.take, List.drop, List.sum_cons, max_def, min_def, abs, CoarseBar.mk.injEq]

theorem revB : revisitOf dfB 5 108 = some ⟨12, 108, 109, 107, 109⟩ := by
  have h : dfB.filter (fun b => decide (5 + 5 ≤ b.t) && decide (b.t ≤ 5 + 20)) =
      [⟨10, 112, 112, 110, 112⟩, ⟨11, 112, 112, 110, 112⟩,
       ⟨12, 108, 109, 107, 109⟩, ⟨13, 114, 120, 109, 120⟩] := rfl
  rw [revisitOf, h]
  norm_num [List.filter_cons, List.filter_nil]

theorem emaB : emaAt (2/51) dfB 13 < emaAt (2/21) dfB 13 := by
  have h : (dfB.filter (fun b => decide (b.t ≤ 13))).map (·.c) =
      [100, 101, 102, 103, 108, 111, 111, 112, 112, 112, 112, 109, 120] := rfl
  rw [emaAt, emaAt, h]
  norm_num [List.foldl, emaStep]

theorem evalB : evalAt dfB 5 = .scored csB := by
  rw [evalAt, fiveB]
  have hf : List.find? (fun b => b.label == 5)
      [(⟨5, 100, 130, 100, 108, 30, 30⟩ : CoarseBar), ⟨10, 110, 112, 110, 112, 2, 17⟩,
       ⟨15, 112, 120, 107, 120, 13, 47/3⟩] = some ⟨5, 100, 130, 100, 108, 30, 30⟩ := rfl
  rw [hf]
  simp only [revB]
  have he : List.find? (fun b => b.t == 12 + 1) dfB = some ⟨13, 114, 120, 109, 120⟩ := rfl
  rw [he]
  have hq : List.filter (fun b => decide (b.label ≤ 5))
      (List.filter (fun b => decide ((20 : ℚ) ≤ b.range))
        [(⟨5, 100, 130, 100, 108, 30, 30⟩ : CoarseBar), ⟨10, 110, 112, 110, 112, 2, 17⟩,
         ⟨15, 112, 120, 107, 120, 13, 47/3⟩]) = [⟨5, 100, 130, 100, 108, 30, 30⟩] := by
    norm_num [List.filter_cons, List.filter_nil]
  norm_num [hq, emaB, emaB.not_lt, csB, lastRankPct, rankPct, List.countP_cons, List.countP_nil,
    Sig.mk.injEq, abs, max_def, min_def]
  simp

theorem raw7 : rawBars df7 = [⟨5, 100, 130, 100, 108⟩, ⟨10, 110, 112, 110, 111⟩] := by
  have h : rawBars df7 = [mkRaw 5 (binOf df7 5), mkRaw 10 (binOf df7 10)] := rfl
  have h5 : binOf df7 5 = [⟨1, 100, 100, 100, 100⟩, ⟨2, 100, 101, 100, 101⟩, ⟨3, 101, 130, 101, 102⟩,
      ⟨4, 102, 103, 100, 103⟩, ⟨5, 103, 108, 103, 108⟩] := rfl
  have h10 : binOf df7 10 = [⟨6, 110, 112, 110, 111⟩, ⟨7, 111, 112, 110, 111⟩] := rfl
  rw [h, h5, h10]
  norm_num [mkRaw, maxQ, minQ, List.foldl, max_def, min_def, RawBar.mk.injEq]

theorem five7 : fiveOf df7 =
    [⟨5, 100, 130, 100, 108, 30, 30⟩, ⟨10, 110, 112, 110, 111, 2, 17⟩] := by
  rw [fiveOf, raw7]
  norm_num [withAtr, trList, trListAux, trOf, atrAt, List.range, List.range.loop,
    List.take, List.drop, List.sum_cons, max_def, min_def, abs, CoarseBar.mk.injEq]

theorem raw8 : rawBars (df7 ++ [bar8]) =
    [⟨5, 100, 130, 100, 108⟩, ⟨10, 110, 112, 110, 112⟩] := by
  have h : rawBars (df7 ++ [bar8]) =
      [mkRaw 5 (binOf (df7 ++ [bar8]) 5), mkRaw 10 (binOf (df7 ++ [bar8]) 10)] := rfl
  have h5 : binOf (df7 ++ [bar8]) 5 = [⟨1, 100, 100, 100, 100⟩, ⟨2, 100, 101, 100, 101⟩,
      ⟨3, 101, 130, 101, 102⟩, ⟨4, 102, 103, 100, 103⟩, ⟨5, 103, 108, 103, 108⟩] := rfl
  have h10 : binOf (df7 ++ [bar8]) 10 = [⟨6, 110, 112, 110, 111⟩, ⟨7, 111, 112, 110, 111⟩,
      ⟨8, 111, 112, 110, 112⟩] := rfl
  rw [h, h5, h10]
  norm_num [mkRaw, maxQ, minQ, List.foldl, max_def, min_def, RawBar.mk.injEq]

theorem five8 : fiveOf (df7 ++ [bar8]) =
    [⟨5, 100, 130, 100, 108, 30, 30⟩, ⟨10, 110, 112, 110, 112, 2, 17⟩] := by
  rw [fiveOf, raw8]
  norm_num [withAtr, trList, trListAux, trOf, atrAt, List.range, List.range.loop,
    List.take, List.drop, List.sum_cons, max_def, min_def, abs, CoarseBar.mk.injEq]

/-! ### Claims -/

/-- C1 (counterexample): the claim says that a loaded PendingEntry whose
scheduled time has passed by more than `ALLOWED_LATE_SEC` at startup is
dropped by the Recovery Manager without executing — no outbound signal —
and its durable record is removed.  With `ALLOWED_LATE_SEC = 30`,
`GRACE_SEC = 60` and an entry 45 seconds late at startup, the recovery
pass leaves the entry (and its durable record) untouched, and the first
main-loop cycle then **executes** it and emits the outbound signal. -/
theorem C1_counterexample :
    recoveryPass 30 1045 priceW ⟨[eW], [1000], []⟩ = ⟨[eW], [1000], []⟩ ∧
    (startupCycle 30 60 1045 priceW ⟨[eW], [1000], []⟩).sent = [execRec eW 105] ∧
    (startupCycle 30 60 1045 priceW ⟨[eW], [1000], []⟩).sent ≠ [] := by
  have hrec : recoveryPass 30 1045 priceW ⟨[eW], [1000], []⟩ = ⟨[eW], [1000], []⟩ := by
    unfold recoveryPass
    simp only [List.foldl_cons, List.foldl_nil, recoveryStep]
    rw [if_neg (by decide)]
  refine ⟨hrec, ?_, ?_⟩
  · unfold startupCycle
    rw [hrec]
    have hclear : clearPass 60 1045 ⟨[eW], [1000], []⟩ = ⟨[eW], [1000], []⟩ := by
      unfold clearPass
      simp only [List.foldl_cons, List.foldl_nil, clearStep]
      rw [if_neg (by decide)]
    rw [hclear]
    unfold dispatchPass
    simp only [List.foldl_cons, List.foldl_nil, dispatchStep]
    rw [if_pos (by decide)]
    have hp : priceW eW.et = some 105 := rfl
    rw [hp]
    dsimp only
    rw [if_neg (by norm_num [tpDist, atrGuard, eW, abs, max_def, min_def])]
    unfold execE
    simp
  · unfold startupCycle
    rw [hrec]
    have hclear : clearPass 60 1045 ⟨[eW], [1000], []⟩ = ⟨[eW], [1000], []⟩ := by
      unfold clearPass
      simp only [List.foldl_cons, List.foldl_nil, clearStep]
      rw [if_neg (by decide)]
    rw [hclear]
    unfold dispatchPass
    simp only [List.foldl_cons, List.foldl_nil, dispatchStep]
    rw [if_pos (by decide)]
    have hp : priceW eW.et = some 105 := rfl
    rw [hp]
    dsimp only
    rw [if_neg (by norm_num [tpDist, atrGuard, eW, abs, max_def, min_def])]
    unfold execE
    simp

/-- C1 (amended): at startup the Recovery Manager skips every entry late
by more than `ALLOWED_LATE_SEC` — the entry and its durable record stay
put.  Such an entry is dropped (signal-free, record removed) only by the
main loop's expiry sweep once lateness exceeds `GRACE_SEC`; if its
lateness is between the two bounds and the entry bar is available with a
positive risk distance, the first cycle's dispatcher *executes* it. -/
theorem C1_theorem (allowed grace now : ℕ) (price : ℕ → Option ℚ) (e : PEntry) (p : ℚ)
    (hlate : allowed < now - e.et) (hnow : e.et ≤ now) :
    recoveryPass allowed now price ⟨[e], [e.et], []⟩ = ⟨[e], [e.et], []⟩ ∧
    (grace < now - e.et →
      startupCycle allowed grace now price ⟨[e], [e.et], []⟩ = ⟨[], [], []⟩) ∧
    (now - e.et ≤ grace → price e.et = some p → ¬(tpDist p e.fo e.atr ≤ 0) →
      startupCycle allowed grace now price ⟨[e], [e.et], []⟩ = ⟨[], [], [execRec e p]⟩) := by
  have hrec : recoveryPass allowed now price ⟨[e], [e.et], []⟩ = ⟨[e], [e.et], []⟩ := by
    unfold recoveryPass
    simp only [List.foldl_cons, List.foldl_nil, recoveryStep]
    rw [if_neg (by omega)]
  have hself : ([e].filter (fun x => decide (x.et ≠ e.et))) = [] := by
    simp [List.filter_cons]
  have hklog : ([e.et].filter (fun x => decide (x ≠ e.et))) = [] := by
    simp [List.filter_cons]
  refine ⟨hrec, ?_, ?_⟩
  · intro hbeyond
    unfold startupCycle
    rw [hrec]
    have hclear : clearPass grace now ⟨[e], [e.et], []⟩ = ⟨[], [], []⟩ := by
      unfold clearPass
      simp only [List.foldl_cons, List.foldl_nil, clearStep]
      rw [if_pos (by omega)]
      unfold dropE
      simp only [hself, hklog]
    rw [hclear]
    unfold dispatchPass
    simp [List.foldl_nil]
  · intro hwithin hp htp
    unfold startupCycle
    rw [hrec]
    have hclear : clearPass grace now ⟨[e], [e.et], []⟩ = ⟨[e], [e.et], []⟩ := by
      unfold clearPass
      simp only [List.foldl_cons, List.foldl_nil, clearStep]
      rw [if_neg (by omega)]
    rw [hclear]
    unfold dispatchPass
    simp only [List.foldl_cons, List.foldl_nil, dispatchStep]
    rw [if_pos (by omega), hp]
    dsimp only
    rw [if_neg htp]
    unfold execE
    simp only [hself, hklog]
    rfl

/-- C1 (witness): the amended statement applied concretely — an entry
105 seconds late (beyond grace 60) is removed without any signal, and
the same entry only 45 seconds late (beyond allowed 30 but within
grace) is executed by the dispatcher. -/
theorem C1_witness :
    startupCycle 30 60 1105 priceW ⟨[eW], [1000], []⟩ = ⟨[], [], []⟩ ∧
    startupCycle 30 60 1045 priceW ⟨[eW], [1000], []⟩ = ⟨[], [], [execRec eW 105]⟩ := by
  constructor
  · exact (C1_theorem 30 60 1105 priceW eW 105 (by decide) (by decide)).2.1 (by decide)
  · exact (C1_theorem 30 60 1045 priceW eW 105 (by decide) (by decide)).2.2 (by decide) rfl
      (by norm_num [tpDist, atrGuard, eW, abs, max_def, min_def])

/-- C2 (counterexample): the claim says the score is a function only of
bars with timestamp ≤ the reference timestamp `T`.  `dfA` and `dfB` are
sorted histories agreeing on every bar with timestamp ≤ 5 (in fact up to
minute 12), yet their scores for `T = 5` differ — the proximity term
reads the entry bar's open at the revisit minute + 1 > `T`. -/
theorem C2_counterexample :
    dfA.filter (fun b => decide (b.t ≤ 5)) = dfB.filter (fun b => decide (b.t ≤ 5)) ∧
    TSorted dfA ∧ TSorted dfB ∧ scoreAt dfA 5 ≠ scoreAt dfB 5 := by
  refine ⟨rfl, by unfold TSorted dfA; decide, by unfold TSorted dfB; decide, ?_⟩
  unfold scoreAt
  rw [evalA, evalB]
  simp only [csA, csB]
  norm_num

/-- C2 (amended): the score for reference timestamp `T` is a function of
the bars with timestamp at most `T + REVISIT_MAX + 1` minutes (= `T+21`):
two sorted fine-bar histories agreeing on all bars up to `T+21` produce
the same score; no bar after the entry minute influences it.  The
percentile universe itself uses only coarse bars labelled ≤ `T`. -/
theorem C2_theorem (df1 df2 : List FineBar) (T : ℕ) (h1 : TSorted df1) (h2 : TSorted df2)
    (hagree : df1.filter (fun b => decide (b.t ≤ T + 21)) =
      df2.filter (fun b => decide (b.t ≤ T + 21))) :
    scoreAt df1 T = scoreAt df2 T := by
  unfold scoreAt
  rw [← evalAt_truncate df1 T h1, ← evalAt_truncate df2 T h2, hagree]

/-- C2 (witness): `dfA` and its extension by a bar at minute 30 agree up
to minute 26, hence get the same score at `T = 5`. -/
theorem C2_witness : scoreAt dfA 5 = scoreAt dfAext 5 :=
  C2_theorem dfA dfAext 5 (by unfold TSorted dfA; decide)
    (by unfold TSorted dfAext dfA; decide) rfl

/-- C3 (counterexample): the claim says the durable append happens
before the in-memory map is updated, so the map never holds an entry
missing from the log.  In the source (lines 397-398) the map insert
comes first: after the first micro-operation of the accept sequence the
map contains the key and the log does not. -/
theorem C3_counterexample :
    (kRun ⟨[], []⟩ ((acceptOps 0).take 1)).mp = [0] ∧
    (kRun ⟨[], []⟩ ((acceptOps 0).take 1)).lg = [] := by
  constructor <;> rfl

/-- C3 (amended): the in-memory map is updated *before* the durable
append on accept, and the durable record is deleted *before* the map
entry on remove; consequently at every intermediate point the log's
keys are contained in the map's keys, and after a completed accept or
remove the two agree again. -/
theorem C3_theorem (s : KState) (k : ℕ) (hsync : ∀ x, x ∈ s.mp ↔ x ∈ s.lg) :
    (∀ n, ∀ x ∈ (kRun s ((acceptOps k).take n)).lg, x ∈ (kRun s ((acceptOps k).take n)).mp) ∧
    (∀ n, ∀ x ∈ (kRun s ((removeOps k).take n)).lg, x ∈ (kRun s ((removeOps k).take n)).mp) ∧
    (∀ x, x ∈ (kRun s (acceptOps k)).mp ↔ x ∈ (kRun s (acceptOps k)).lg) ∧
    (∀ x, x ∈ (kRun s (removeOps k)).mp ↔ x ∈ (kRun s (removeOps k)).lg) := by
  have hacc : ∀ n, 2 ≤ n → (acceptOps k).take n = acceptOps k := fun n hn =>
    List.take_of_length_le (by simp [acceptOps]; omega)
  have hrem : ∀ n, 2 ≤ n → (removeOps k).take n = removeOps k := fun n hn =>
    List.take_of_length_le (by simp [removeOps]; omega)
  have haccf : kRun s (acceptOps k) = ⟨k :: s.mp.filter (fun x => decide (x ≠ k)), s.lg ++ [k]⟩ := rfl
  have hremf : kRun s (removeOps k) =
      ⟨s.mp.filter (fun x => decide (x ≠ k)), s.lg.filter (fun x => decide (x ≠ k))⟩ := rfl
  refine ⟨?_, ?_, ?_, ?_⟩
  · intro n x hx
    match n with
    | 0 => exact (hsync x).mpr hx
    | 1 =>
      simp only [acceptOps, List.take, kRun, List.foldl_cons, List.foldl_nil, kApply] at hx ⊢
      by_cases hxk : x = k
      · simp [hxk]
      · simp only [List.mem_cons, List.mem_filter]
        exact Or.inr ⟨(hsync x).mpr hx, by simpa using hxk⟩
    | (n + 2) =>
      rw [hacc (n + 2) (by omega)] at hx ⊢
      rw [haccf] at hx ⊢
      simp only [List.mem_append, List.mem_cons, List.mem_filter] at hx ⊢
      rcases hx with hx | rfl | h0
      · by_cases hxk : x = k
        · exact Or.inl hxk
        · exact Or.inr ⟨(hsync x).mpr hx, by simpa using hxk⟩
      · exact Or.inl rfl
      · cases h0
  · intro n x hx
    match n with
    | 0 => exact (hsync x).mpr hx
    | 1 =>
      simp only [removeOps, List.take, kRun, List.foldl_cons, List.foldl_nil, kApply] at hx ⊢
      rcases List.mem_filter.mp hx with ⟨hxl, _⟩
      exact (hsync x).mpr hxl
    | (n + 2) =>
      rw [hrem (n + 2) (by omega)] at hx ⊢
      rw [hremf] at hx ⊢
      rcases List.mem_filter.mp hx with ⟨hxl, hxk⟩
      exact List.mem_filter.mpr ⟨(hsync x).mpr hxl, hxk⟩
  · intro x
    rw [haccf]
    simp only [List.mem_append, List.mem_cons, List.mem_filter]
    constructor
    · rintro (rfl | ⟨hx, _⟩)
      · exact Or.inr (Or.inl rfl)
      · exact Or.inl ((hsync x).mp hx)
    · rintro (hx | rfl | h0)
      · by_cases hxk : x = k
        · exact Or.inl hxk
        · exact Or.inr ⟨(hsync x).mpr hx, by simpa using hxk⟩
      · exact Or.inl rfl
      · cases h0
  · intro x
    rw [hremf]
    simp only [List.mem_filter]
    constructor
    · rintro ⟨hx, hxk⟩
      exact ⟨(hsync x).mp hx, hxk⟩
    · rintro ⟨hx, hxk⟩
      exact ⟨(hsync x).mpr hx, hxk⟩

/-- C3 (witness): the amended lock-step facts at the synced state with
map and log both `[3]` and key 5: after the full accept both contain 5,
and mid-accept the log stays inside the map. -/
theorem C3_witness :
    (∀ x ∈ (kRun ⟨[3], [3]⟩ ((acceptOps 5).take 1)).lg,
      x ∈ (kRun ⟨[3], [3]⟩ ((acceptOps 5).take 1)).mp) ∧
    (5 ∈ (kRun ⟨[3], [3]⟩ (acceptOps 5)).mp ↔ 5 ∈ (kRun ⟨[3], [3]⟩ (acceptOps 5)).lg) := by
  have h := C3_theorem ⟨[3], [3]⟩ 5 (fun x => Iff.rfl)
  exact ⟨h.1 1, h.2.2.1 5⟩

/-- C5 (confirmed): a confirmed (scored) candidate is accepted iff its
score reaches the threshold **and** its preliminary risk distance is
positive; the boundary `score = threshold` is accepted.  The code tests
only `score ≥ threshold`, but for every candidate the pipeline can
produce, `atr14 ≥ range/14 ≥ 20/14 > 0`, so the preliminary distance
`min(max(|entry_open−five_open|, atr/2), 20)` is always positive and
the two formulations coincide (the degenerate-drop clause is vacuous). -/
theorem C5_theorem (df : List FineBar) (T : ℕ) (th : ℚ) (cs : Sig) (hwf : WF df)
    (h : evalAt df T = .scored cs) :
    acceptedAt th df T = true ↔ (th ≤ cs.score ∧ 0 < tpPrelim cs) := by
  rcases evalAt_scored_inv h with ⟨rrow, hmem, h20, hfo, hfc, hfr, hatr, -, -, -, -, -, -⟩
  have hpos : 0 < rrow.atr := fiveOf_atr_pos hwf rrow hmem h20
  have htp : 0 < tpPrelim cs := by
    unfold tpPrelim
    rw [hatr]
    apply lt_min _ (by norm_num)
    calc (0 : ℚ) < (1/2) * rrow.atr := by linarith
    _ ≤ max |cs.eo - cs.fo| ((1/2) * rrow.atr) := le_max_right _ _
  unfold acceptedAt
  rw [h]
  simp only [decide_eq_true_eq]
  exact ⟨fun hs => ⟨hs, htp⟩, fun hs => hs.1⟩

/-- C5 (witness): for `dfA` the score is exactly 99/100; with threshold
99/100 the boundary candidate is accepted, and its preliminary risk
distance is positive. -/
theorem C5_witness : acceptedAt (99/100) dfA 5 = true ∧ (0 : ℚ) < tpPrelim csA := by
  have hwf : WF dfA := by
    unfold WF dfA
    simp only [List.forall_mem_cons, List.forall_mem_nil]
    norm_num
  have htp : (0 : ℚ) < tpPrelim csA := by norm_num [tpPrelim, csA, abs, max_def, min_def]
  exact ⟨(C5_theorem dfA 5 (99/100) csA hwf evalA).mpr ⟨by norm_num [csA], htp⟩, htp⟩

/-- C6 (counterexample): the claim says revisit bars lie in the
left-open window `(T+5, T+20]`, so a bar at exactly `T+5` is outside.
The code slices `df1[T+5 : T+20]` inclusively: a touching bar at
exactly minute `T+5` becomes the revisit bar. -/
theorem C6_counterexample :
    revisitOf df6 5 108 = some ⟨10, 108, 109, 107, 108⟩ ∧ ¬(5 + 5 < 10) := by
  constructor
  · unfold revisitOf df6
    norm_num [List.filter_cons, List.filter_nil]
  · omega

/-- C6 (amended): the revisit bar is the first fine bar in time order in
the **closed** window `[T+REVISIT_MIN, T+REVISIT_MAX]` whose range
touches the reference close (`low ≤ reference_close ≤ high`); bars at
exactly `T+5` are inside the window. -/
theorem C6_theorem (df : List FineBar) (T : ℕ) (rc : ℚ) (b : FineBar)
    (hs : TSorted df) (h : revisitOf df T rc = some b) :
    (T + 5 ≤ b.t ∧ b.t ≤ T + 20 ∧ b.l ≤ rc ∧ rc ≤ b.h) ∧
    ∀ b' ∈ df, b'.t < b.t → ¬(T + 5 ≤ b'.t ∧ b'.t ≤ T + 20 ∧ b'.l ≤ rc ∧ rc ≤ b'.h) := by
  have hspec := revisitOf_spec h
  exact ⟨⟨hspec.2.1.1, hspec.2.1.2, hspec.2.2.1, hspec.2.2.2⟩, revisitOf_first hs h⟩

/-- C6 (witness): in `dfA` the revisit bar for reference 5 and close
108 is minute 12, inside the window, and no earlier window bar touches. -/
theorem C6_witness :
    (5 + 5 ≤ 12 ∧ 12 ≤ 5 + 20 ∧ (107 : ℚ) ≤ 108 ∧ (108 : ℚ) ≤ 109) ∧
    ∀ b' ∈ dfA, b'.t < 12 →
      ¬(5 + 5 ≤ b'.t ∧ b'.t ≤ 5 + 20 ∧ b'.l ≤ 108 ∧ (108 : ℚ) ≤ b'.h) :=
  C6_theorem dfA 5 108 ⟨12, 108, 109, 107, 109⟩ (by unfold TSorted dfA; decide) revA

/-- C7 (counterexample): the claim says the aggregator never exposes a
partial coarse bar.  With fine bars for minutes 1-7 the bin labelled 10
is still in progress, yet `build_5min_from_1min` exposes a bar for it;
observing minute 8 changes that bar's close from 111 to 112. -/
theorem C7_counterexample :
    (fiveOf df7).find? (fun b => b.label == 10) =
      some ⟨10, 110, 112, 110, 111, 2, 17⟩ ∧
    (fiveOf (df7 ++ [bar8])).find? (fun b => b.label == 10) =
      some ⟨10, 110, 112, 110, 112, 2, 17⟩ ∧
    (⟨10, 110, 112, 110, 111, 2, 17⟩ : CoarseBar) ≠ ⟨10, 110, 112, 110, 112, 2, 17⟩ := by
  refine ⟨?_, ?_, ?_⟩
  · rw [five7]
    rfl
  · rw [five8]
    rfl
  · norm_num [CoarseBar.mk.injEq]

/-- C7 (amended): a coarse bar whose bin has fully elapsed is complete
and stable: as soon as some observed fine bar has timestamp at or past
the label `L`, appending any later fine bars leaves the exposed
`L`-labelled coarse bar (OHLC, range and ATR) unchanged.  Only the
trailing in-progress bin's bar can still change. -/
theorem C7_theorem (df ext : List FineBar) (L : ℕ) (hs : TSorted (df ++ ext))
    (hL : ∃ b ∈ df, L ≤ b.t) :
    (fiveOf (df ++ ext)).find? (fun b => b.label == L) =
    (fiveOf df).find? (fun b => b.label == L) :=
  fiveOf_stable df ext L hs hL

/-- C7 (witness): the 5-labelled bar of `df7` (its bin fully elapsed) is
unchanged by the arrival of minute 8. -/
theorem C7_witness :
    (fiveOf (df7 ++ [bar8])).find? (fun b => b.label == 5) =
    (fiveOf df7).find? (fun b => b.label == 5) :=
  C7_theorem df7 [bar8] 5 (by unfold TSorted df7 bar8; decide)
    ⟨⟨5, 103, 108, 103, 108⟩,
      List.mem_cons_of_mem _ (List.mem_cons_of_mem _ (List.mem_cons_of_mem _
        (List.mem_cons_of_mem _ (List.mem_cons_self _ _)))),
      by decide⟩

/-- C8 (confirmed): for every scored candidate the proximity equals
`1 − min(|entry_open − reference_close| / max(reference_range, 1), 1)`
(the code divides by `range if range>0 else 1`, which agrees since
qualifying ranges are ≥ 20), the composite score is
`0.4·range_pct + 0.3·proximity + 0.2·atr_pct + 0.1·trend_flag`, and the
score lies in `[0, 1]`. -/
theorem C8_theorem (df : List FineBar) (T : ℕ) (cs : Sig) (h : evalAt df T = .scored cs) :
    cs.prox = 1 - min (|cs.eo - cs.fc| / max cs.fr 1) 1 ∧
    cs.score = (4/10) * cs.rp + (3/10) * cs.prox + (2/10) * cs.ap + (1/10) * cs.flag ∧
    0 ≤ cs.score ∧ cs.score ≤ 1 := by
  rcases evalAt_scored_inv h with
    ⟨rrow, hmem, h20, hfo, hfc, hfr, hatr, hprox, hflag, hscore, hrp, hap, hpr⟩
  have hfr20 : (20 : ℚ) ≤ cs.fr := by
    rw [hfr]
    exact h20
  have hite : (if 0 < cs.fr then cs.fr else 1) = cs.fr := if_pos (by linarith)
  have hmax : max cs.fr 1 = cs.fr := max_eq_left (by linarith)
  have hprior_ne : (((fiveOf df).filter (fun b => decide ((20 : ℚ) ≤ b.range))).filter
      (fun b => decide (b.label ≤ T))) ≠ [] := List.ne_nil_of_mem hpr
  have hb1 : 0 ≤ cs.rp ∧ cs.rp ≤ 1 := by
    rw [hrp]
    apply lastRankPct_bounds
    intro hc
    rw [List.map_eq_nil_iff] at hc
    exact hprior_ne hc
  have hb2 : 0 ≤ cs.ap ∧ cs.ap ≤ 1 := by
    rw [hap]
    apply lastRankPct_bounds
    intro hc
    rw [List.map_eq_nil_iff] at hc
    exact hprior_ne hc
  have hb3 : 0 ≤ cs.prox ∧ cs.prox ≤ 1 := by
    rw [hprox, hite]
    have hd : 0 ≤ |cs.eo - cs.fc| / cs.fr := div_nonneg (abs_nonneg _) (by linarith)
    constructor
    · have := min_le_right (|cs.eo - cs.fc| / cs.fr) 1
      linarith
    · have := le_min hd (by norm_num : (0 : ℚ) ≤ 1)
      linarith
  have hb4 : 0 ≤ cs.flag ∧ cs.flag ≤ 1 := by
    rcases hflag with hf | hf <;> rw [hf] <;> norm_num
  refine ⟨by rw [hprox, hite, hmax], hscore, ?_, ?_⟩
  · rw [hscore]
    linarith [hb1.1, hb2.1, hb3.1, hb4.1]
  · rw [hscore]
    linarith [hb1.2, hb2.2, hb3.2, hb4.2]

/-- C8 (witness): the scored candidate of `dfA` satisfies the proximity
and score formulas and the score bound concretely. -/
theorem C8_witness :
    csA.prox = 1 - min (|csA.eo - csA.fc| / max csA.fr 1) 1 ∧
    csA.score = (4/10) * csA.rp + (3/10) * csA.prox + (2/10) * csA.ap + (1/10) * csA.flag ∧
    0 ≤ csA.score ∧ csA.score ≤ 1 :=
  C8_theorem dfA 5 csA evalA

/-- C9 (counterexample): the claim says removing a key with no record in
the log leaves the log unchanged.  A log holding one malformed line has
no record for key "k", yet `persist_pending_remove` rewrites it to an
empty file (the `except: continue` skips unparseable lines, dropping
them from the kept set). -/
theorem C9_counterexample :
    persistPendingRemove [LogLine.badLine "x"] "k" = [] ∧
    ([LogLine.badLine "x"] : List LogLine) ≠ [] := by
  exact ⟨rfl, List.cons_ne_nil _ _⟩

/-- C9 (amended): removal is idempotent (removing the same key twice
equals removing it once, for every log state), and removing a key with
no record is a no-op on logs whose lines are all well-formed records of
other keys; any removal silently drops malformed lines. -/
theorem C9_theorem (lines : List LogLine) (k : String) :
    persistPendingRemove (persistPendingRemove lines k) k = persistPendingRemove lines k ∧
    ((∀ ln ∈ lines, ∀ r, ln ≠ LogLine.badLine r) ∧
      (∀ t payload, LogLine.okLine t payload ∈ lines → t ≠ k) →
      persistPendingRemove lines k = lines) := by
  constructor
  · unfold persistPendingRemove
    rw [List.filter_filter]
    apply List.filter_congr
    intro ln _
    cases ln <;> simp
  · rintro ⟨hok, hkey⟩
    apply List.filter_eq_self.mpr
    intro ln hln
    cases ln with
    | okLine t payload => simpa using hkey t payload hln
    | badLine r => exact absurd rfl (hok _ hln r)

/-- C9 (witness): on a clean one-record log with an absent key, removal
twice equals removal once, and removal is a no-op. -/
theorem C9_witness :
    persistPendingRemove (persistPendingRemove [LogLine.okLine "a" "p"] "k") "k" =
      persistPendingRemove [LogLine.okLine "a" "p"] "k" ∧
    persistPendingRemove [LogLine.okLine "a" "p"] "k" = [LogLine.okLine "a" "p"] := by
  have h := C9_theorem [LogLine.okLine "a" "p"] "k"
  refine ⟨h.1, h.2 ⟨?_, ?_⟩⟩
  · intro ln hln r
    rcases List.mem_cons.mp hln with rfl | h0
    · exact LogLine.noConfusion
    · cases h0
  · intro t payload hmem ht
    rcases List.mem_cons.mp hmem with heq | h0
    · rw [LogLine.okLine.injEq] at heq
      rw [heq.1] at ht
      exact absurd ht (by decide)
    · cases h0

/-- C10 (confirmed): when the stored volatility estimate is NaN
(modelled `none`), the guard at lines 256/427 replaces it by 0, so the
recomputed risk distance is `min(|fill − reference_open|, 20)` and the
emitted target/stop prices are the plain rational expressions below —
no NaN can reach them. -/
theorem C10_theorem (p fo : ℚ) (atr : Option ℚ) (h : atr = none) :
    tpDist p fo atr = min |p - fo| 20 ∧
    tpPrice Side.long p (tpDist p fo atr) = p + min |p - fo| 20 ∧
    slPrice Side.long p (tpDist p fo atr) = p - (1/2) * min |p - fo| 20 ∧
    tpPrice Side.short p (tpDist p fo atr) = p - min |p - fo| 20 ∧
    slPrice Side.short p (tpDist p fo atr) = p + (1/2) * min |p - fo| 20 := by
  subst h
  have htd : tpDist p fo none = min |p - fo| 20 := by
    unfold tpDist atrGuard
    rw [mul_zero, max_eq_left (abs_nonneg _)]
  refine ⟨htd, ?_, ?_, ?_, ?_⟩ <;> rw [htd] <;> rfl

/-- C10 (witness): concrete NaN-ATR execution at fill 105, reference
open 100: distance 5, long target 110. -/
theorem C10_witness :
    tpDist 105 100 none = 5 ∧ tpPrice Side.long 105 (tpDist 105 100 none) = 110 := by
  have h := C10_theorem 105 100 none rfl
  constructor
  · rw [h.1]
    norm_num [abs, max_def, min_def]
  · rw [h.2.1]
    norm_num [abs, max_def, min_def, tpPrice]
